import Mathlib

/-!
Verification of the emotion-detection application in `facial.py`.

The file gives a shallow embedding of the application's core logic:

* `dequeAppend` models `collections.deque(maxlen=100).append` — the bounded
  history used for `emotion_history` and `emotion_timestamps`;
* `bump`, `emotion_counts` and `get_emotion_stats` model
  `EmotionDetector.get_emotion_stats` (percentages are modelled with `ℚ`,
  standing in for Python floats);
* `detect_emotion` models `EmotionDetector.detect_emotion`, with the external
  OpenCV/DeepFace calls represented as an environment of `Except`-valued
  functions (`Except.error` models a raised exception);
* `AppState`, `start_detection`, `stop_detection` and `step` model
  `EmotionDetectionApp`'s session state machine: the `start`/`stop` button
  handlers and one iteration of the `run_detection` loop.
-/

/-- The capacity of the two history deques (`deque(maxlen=100)`). -/
def HISTORY_CAP : Nat := 100

/-- The last `n` elements of a list, in order. -/
def lastN (n : Nat) (xs : List α) : List α :=
  xs.drop (xs.length - n)

/-- `deque(maxlen=cap).append x`: append `x` on the right and, if the deque
would exceed `cap`, discard elements from the left (for a deque that already
satisfies `|xs| ≤ cap`, at most the single oldest entry is discarded). -/
def dequeAppend (cap : Nat) (xs : List α) (x : α) : List α :=
  (xs ++ [x]).drop (xs.length + 1 - cap)

theorem dequeAppend_eq_lastN (cap : Nat) (xs : List α) (x : α) :
    dequeAppend cap xs x = lastN cap (xs ++ [x]) := by
  simp [dequeAppend, lastN]

theorem length_lastN (n : Nat) (xs : List α) :
    (lastN n xs).length = min xs.length n := by
  simp [lastN]
  omega

theorem length_dequeAppend (cap : Nat) (xs : List α) (x : α) :
    (dequeAppend cap xs x).length = min (xs.length + 1) cap := by
  rw [dequeAppend_eq_lastN, length_lastN]
  simp

theorem lastN_of_le (n : Nat) (xs : List α) (h : xs.length ≤ n) :
    lastN n xs = xs := by
  unfold lastN
  rw [Nat.sub_eq_zero_of_le h, List.drop_zero]

/-- Taking the last `n` of `lastN n a ++ b` is the same as taking the last `n`
of `a ++ b`: the elements dropped on the left could never survive anyway. -/
theorem lastN_lastN_append (n : Nat) (a b : List α) :
    lastN n (lastN n a ++ b) = lastN n (a ++ b) := by
  unfold lastN
  rw [← List.drop_append_of_le_length (show a.length - n ≤ a.length by omega)]
  rw [List.drop_drop]
  congr 1
  simp [List.length_drop, List.length_append]
  omega

/-- Folding `dequeAppend cap` over a list of new elements keeps exactly the
last `cap` elements of the concatenation, in arrival order. -/
theorem foldl_dequeAppend (cap : Nat) (xs : List α) (h : xs.length ≤ cap)
    (l : List α) :
    l.foldl (dequeAppend cap) xs = lastN cap (xs ++ l) := by
  induction l generalizing xs with
  | nil => simp [lastN_of_le cap xs h]
  | cons y l ih =>
    have hlen : (dequeAppend cap xs y).length ≤ cap := by
      rw [length_dequeAppend]; omega
    calc (y :: l).foldl (dequeAppend cap) xs
        = l.foldl (dequeAppend cap) (dequeAppend cap xs y) := rfl
      _ = lastN cap (dequeAppend cap xs y ++ l) := ih _ hlen
      _ = lastN cap (lastN cap (xs ++ [y]) ++ l) := by rw [dequeAppend_eq_lastN]
      _ = lastN cap ((xs ++ [y]) ++ l) := lastN_lastN_append _ _ _
      _ = lastN cap (xs ++ y :: l) := by simp

/-- At full capacity, an append evicts exactly the oldest (leftmost) entry. -/
theorem dequeAppend_full (cap : Nat) (xs : List α) (x : α)
    (h : xs.length = cap) (hpos : 0 < cap) :
    dequeAppend cap xs x = xs.tail ++ [x] := by
  unfold dequeAppend
  have h1 : xs.length + 1 - cap = 1 := by omega
  rw [h1]
  cases xs with
  | nil => simp at h; omega
  | cons a l => simp

/-- One step of the counting loop in `get_emotion_stats`:
`emotion_counts[emotion] = emotion_counts.get(emotion, 0) + 1`, with the dict
modelled as an association list in key-insertion order. -/
def bump (counts : List (String × Nat)) (e : String) : List (String × Nat) :=
  if counts.any (fun p => p.1 = e) then
    counts.map (fun p => if p.1 = e then (p.1, p.2 + 1) else p)
  else counts ++ [(e, 1)]

/-- The `emotion_counts` dictionary built by the `for` loop in
`get_emotion_stats`. -/
def emotion_counts (hist : List String) : List (String × Nat) :=
  hist.foldl bump []

/-- `EmotionDetector.get_emotion_stats`: `{}` when the history is empty,
otherwise `{emotion: count / total * 100}` (dict modelled as an association
list, percentages as `ℚ`). -/
def get_emotion_stats (hist : List String) : List (String × ℚ) :=
  if hist.isEmpty then []
  else (emotion_counts hist).map
    (fun p => (p.1, (p.2 : ℚ) / (hist.length : ℚ) * 100))

/-- Dictionary read with default `0`, as in `counts.get(e, 0)`. -/
def countVal (counts : List (String × Nat)) (e : String) : Nat :=
  (counts.lookup e).getD 0

/-- The keys of an association list, in order. -/
def keysOf (counts : List (String × Nat)) : List String :=
  counts.map Prod.fst

/-- The values of an association list, in order. -/
def valsOf (counts : List (String × Nat)) : List Nat :=
  counts.map Prod.snd

theorem bump_cons_ne (p : String × Nat) (l : List (String × Nat)) (x : String)
    (h : p.1 ≠ x) : bump (p :: l) x = p :: bump l x := by
  unfold bump
  by_cases hl : l.any (fun q => q.1 = x)
  · simp [List.any_cons, h, hl]
  · simp [List.any_cons, h, hl]

theorem map_inc_eq_of_not_mem (l : List (String × Nat)) (x : String)
    (h : x ∉ keysOf l) :
    l.map (fun p => if p.1 = x then (p.1, p.2 + 1) else p) = l := by
  induction l with
  | nil => rfl
  | cons p l ih =>
    simp only [keysOf, List.map_cons, List.mem_cons] at h
    push_neg at h
    have h1 : p.1 ≠ x := fun hc => h.1 hc.symm
    have h2 : x ∉ keysOf l := by simpa [keysOf] using h.2
    simp [h1, ih h2]

theorem lookup_map_inc_ne (l : List (String × Nat)) (x e : String) (h : e ≠ x) :
    (l.map (fun p => if p.1 = x then (p.1, p.2 + 1) else p)).lookup e =
      l.lookup e := by
  induction l with
  | nil => rfl
  | cons p l ih =>
    obtain ⟨k, v⟩ := p
    by_cases hk : k = x
    · subst hk
      have he : (e == k) = false := by
        simp only [beq_eq_false_iff_ne]
        exact h
      simp [List.lookup_cons, he, ih]
    · simp only [List.map_cons, if_neg hk]
      cases hek : e == k <;> simp [List.lookup_cons, hek, ih]

theorem lookup_bump (counts : List (String × Nat)) (x e : String) :
    (bump counts x).lookup e =
      if e = x then some (countVal counts x + 1) else counts.lookup e := by
  induction counts with
  | nil =>
    by_cases h : e = x
    · subst h
      simp [bump, countVal, List.lookup_cons]
    · have he : (e == x) = false := by
        simp only [beq_eq_false_iff_ne]; exact h
      simp [bump, countVal, h, he, List.lookup_cons]
  | cons p l ih =>
    obtain ⟨k, v⟩ := p
    by_cases hkx : k = x
    · subst hkx
      have hbump : bump ((k, v) :: l) k =
          (k, v + 1) :: l.map (fun p => if p.1 = k then (p.1, p.2 + 1) else p) := by
        simp [bump, List.any_cons]
      rw [hbump]
      by_cases hek : e = k
      · subst hek
        simp [List.lookup_cons, countVal]
      · have he : (e == k) = false := by
          simp only [beq_eq_false_iff_ne]; exact hek
        simp [List.lookup_cons, he, hek, lookup_map_inc_ne l k e hek]
    · rw [bump_cons_ne _ _ _ hkx]
      by_cases hek : e = k
      · subst hek
        have hex : e ≠ x := fun hc => hkx (hc ▸ rfl)
        simp [List.lookup_cons, hex]
      · have he : (e == k) = false := by
          simp only [beq_eq_false_iff_ne]; exact hek
        rw [show ((k, v) :: bump l x).lookup e = (bump l x).lookup e by
          simp [List.lookup_cons, he]]
        rw [ih]
        by_cases hex2 : e = x
        · have hxk : (x == k) = false := by
            simp only [beq_eq_false_iff_ne]
            exact fun hc => hkx hc.symm
          have hkv : countVal ((k, v) :: l) x = countVal l x := by
            simp [countVal, List.lookup_cons, hxk]
          simp [hex2, hkv]
        · simp [hex2, List.lookup_cons, he]

theorem keysOf_map_inc (l : List (String × Nat)) (x : String) :
    keysOf (l.map (fun p => if p.1 = x then (p.1, p.2 + 1) else p)) =
      keysOf l := by
  induction l with
  | nil => rfl
  | cons p l ih =>
    by_cases hp : p.1 = x <;> simp [keysOf, hp] <;> simpa [keysOf] using ih

theorem mem_keysOf_bump (c : List (String × Nat)) (x e : String) :
    e ∈ keysOf (bump c x) ↔ e ∈ keysOf c ∨ e = x := by
  unfold bump
  by_cases hc : c.any (fun p => p.1 = x)
  · have hx : x ∈ keysOf c := by
      obtain ⟨p, hp, hpx⟩ := List.any_eq_true.mp hc
      have : p.1 = x := of_decide_eq_true hpx
      exact this ▸ List.mem_map_of_mem Prod.fst hp
    rw [if_pos hc, keysOf_map_inc]
    constructor
    · exact Or.inl
    · rintro (h | rfl)
      · exact h
      · exact hx
  · rw [if_neg hc]
    simp [keysOf, List.map_append]

theorem nodup_keysOf_bump (c : List (String × Nat)) (x : String)
    (h : (keysOf c).Nodup) : (keysOf (bump c x)).Nodup := by
  unfold bump
  by_cases hc : c.any (fun p => p.1 = x)
  · rw [if_pos hc, keysOf_map_inc]
    exact h
  · have hx : x ∉ keysOf c := by
      intro hmem
      obtain ⟨p, hp, hpx⟩ := List.mem_map.mp hmem
      exact absurd (List.any_eq_true.mpr ⟨p, hp, decide_eq_true hpx⟩) hc
    rw [if_neg hc]
    simp only [keysOf, List.map_append]
    rw [List.nodup_append]
    refine ⟨h, List.nodup_singleton x, ?_⟩
    intro a ha hax
    rw [List.map_singleton, List.mem_singleton] at hax
    have hax2 : a = x := hax
    exact hx (hax2 ▸ ha)

theorem sum_valsOf_bump (c : List (String × Nat)) (x : String)
    (h : (keysOf c).Nodup) :
    (valsOf (bump c x)).sum = (valsOf c).sum + 1 := by
  induction c with
  | nil => simp [bump, valsOf]
  | cons p l ih =>
    have hk : p.1 ∉ keysOf l ∧ (keysOf l).Nodup := by
      simpa [keysOf, List.nodup_cons] using h
    by_cases hp : p.1 = x
    · have hxl : x ∉ keysOf l := hp ▸ hk.1
      have hbump : bump (p :: l) x = (p.1, p.2 + 1) :: l := by
        simp [bump, List.any_cons, hp, map_inc_eq_of_not_mem l x hxl]
      rw [hbump]
      simp [valsOf]
      omega
    · rw [bump_cons_ne _ _ _ hp]
      have hstep : (valsOf (p :: bump l x)).sum = p.2 + (valsOf (bump l x)).sum := by
        simp [valsOf]
      rw [hstep, ih hk.2]
      simp [valsOf]
      omega

theorem lookup_foldl_bump (hist : List String) (c : List (String × Nat))
    (e : String) :
    (hist.foldl bump c).lookup e =
      if e ∈ hist then some (countVal c e + hist.count e) else c.lookup e := by
  induction hist generalizing c with
  | nil => simp
  | cons a l ih =>
    rw [List.foldl_cons, ih]
    by_cases hea : e = a
    · subst hea
      have hcv : countVal (bump c e) e = countVal c e + 1 := by
        simp [countVal, lookup_bump]
      by_cases hel : e ∈ l
      · simp [hel, hcv, List.count_cons]
        omega
      · have hc0 : l.count e = 0 := List.count_eq_zero.mpr hel
        simp [hel, lookup_bump, List.count_cons, hc0]
    · have hlk : (bump c a).lookup e = c.lookup e := by
        rw [lookup_bump]
        simp [hea]
      have hcv : countVal (bump c a) e = countVal c e := by
        simp [countVal, hlk]
      have hcnt : (a :: l).count e = l.count e := by
        have h1 : (e == a) = false := by
          simp only [beq_eq_false_iff_ne]; exact hea
        have h2 : (a == e) = false := by
          simp only [beq_eq_false_iff_ne]
          exact fun hc => hea hc.symm
        simp [List.count_cons, h1, h2]
      by_cases hel : e ∈ l <;> simp [hel, hea, hcv, hlk, hcnt]

theorem mem_keysOf_foldl_bump (hist : List String) (c : List (String × Nat))
    (e : String) :
    e ∈ keysOf (hist.foldl bump c) ↔ e ∈ keysOf c ∨ e ∈ hist := by
  induction hist generalizing c with
  | nil => simp
  | cons a l ih =>
    rw [List.foldl_cons, ih, mem_keysOf_bump]
    constructor
    · rintro ((h | h) | h)
      · exact Or.inl h
      · exact Or.inr (h ▸ List.mem_cons_self a l)
      · exact Or.inr (List.mem_cons_of_mem a h)
    · rintro (h | h)
      · exact Or.inl (Or.inl h)
      · rcases List.mem_cons.mp h with h | h
        · exact Or.inl (Or.inr h)
        · exact Or.inr h

theorem nodup_sum_foldl_bump (hist : List String) (c : List (String × Nat))
    (h : (keysOf c).Nodup) :
    (keysOf (hist.foldl bump c)).Nodup ∧
      (valsOf (hist.foldl bump c)).sum = (valsOf c).sum + hist.length := by
  induction hist generalizing c with
  | nil => simpa using h
  | cons a l ih =>
    rw [List.foldl_cons]
    obtain ⟨h1, h2⟩ := ih (bump c a) (nodup_keysOf_bump c a h)
    refine ⟨h1, ?_⟩
    rw [h2, sum_valsOf_bump c a h]
    simp [List.length_cons]
    omega

theorem lookup_emotion_counts (hist : List String) (e : String) :
    (emotion_counts hist).lookup e =
      if e ∈ hist then some (hist.count e) else none := by
  unfold emotion_counts
  rw [lookup_foldl_bump]
  simp [countVal]

theorem mem_keysOf_emotion_counts (hist : List String) (e : String) :
    e ∈ keysOf (emotion_counts hist) ↔ e ∈ hist := by
  unfold emotion_counts
  rw [mem_keysOf_foldl_bump]
  simp [keysOf]

theorem sum_valsOf_emotion_counts (hist : List String) :
    (valsOf (emotion_counts hist)).sum = hist.length := by
  have h := nodup_sum_foldl_bump hist [] (by simp [keysOf])
  simpa [emotion_counts, valsOf] using h.2

theorem nodup_keysOf_emotion_counts (hist : List String) :
    (keysOf (emotion_counts hist)).Nodup :=
  (nodup_sum_foldl_bump hist [] (by simp [keysOf])).1

theorem lookup_map_value (c : List (String × Nat)) (g : Nat → ℚ) (e : String) :
    (c.map (fun p => (p.1, g p.2))).lookup e = (c.lookup e).map g := by
  induction c with
  | nil => rfl
  | cons p l ih =>
    obtain ⟨k, v⟩ := p
    cases hek : e == k <;> simp [List.lookup_cons, hek, ih]

theorem sum_snd_map_value (c : List (String × Nat)) (T : ℚ) :
    ((c.map (fun p => (p.1, (p.2 : ℚ) / T * 100))).map Prod.snd).sum =
      ((valsOf c).sum : ℚ) / T * 100 := by
  induction c with
  | nil => simp [valsOf]
  | cons p l ih =>
    simp only [List.map_cons, List.sum_cons, ih, valsOf]
    push_cast
    ring

/-- A face bounding box `(x, y, w, h)` as returned by `detectMultiScale`. -/
structure Region where
  x : Nat
  y : Nat
  w : Nat
  h : Nat
deriving DecidableEq, Repr

/-- The slice of the `DeepFace.analyze` result that `detect_emotion` reads:
`dominant_emotion` (read with `result.get('dominant_emotion', None)`) and the
per-label score dict `result['emotion']` (scores modelled as `ℚ`). -/
structure AnalyzeResult where
  dominant_emotion : Option String
  emotion : List (String × ℚ)
deriving DecidableEq, Repr

/-- The external collaborators of `EmotionDetector.detect_emotion` for one
frame. Each call may raise, so it is modelled as `Except`-valued:
`Except.error` is a raised exception, caught by the adapter's `try`. -/
structure DetectEnv where
  /-- `cv2.cvtColor(frame, cv2.COLOR_BGR2GRAY)`; the gray image itself is
  opaque to the control logic, so only success/failure is kept. -/
  cvtColor : Except String Unit
  /-- `face_cascade.detectMultiScale(gray, ...)`: the list of face regions in
  scan order. -/
  detectMultiScale : Except String (List Region)
  /-- `DeepFace.analyze(face_img, actions=['emotion'],
  enforce_detection=False)[0]` on the crop determined by a region. -/
  analyze : Region → Except String AnalyzeResult

/-- `result['emotion'].get(emotion_label, 0)`: the score dict read at the
(possibly absent) dominant label; `None` or a missing key yields `0`. -/
def scoreGet (scores : List (String × ℚ)) : Option String → ℚ
  | none => 0
  | some l => (scores.lookup l).getD 0

/-- The body of the `try` block in `EmotionDetector.detect_emotion`. -/
def detect_emotion_body (env : DetectEnv) :
    Except String (Option Region × Option String × ℚ) := do
  let _gray ← env.cvtColor
  let faces ← env.detectMultiScale
  match faces with
  | f :: _ =>
    let result ← env.analyze f
    let emotion_label := result.dominant_emotion
    return (some f, emotion_label, scoreGet result.emotion emotion_label)
  | [] => return (none, none, 0)

/-- `EmotionDetector.detect_emotion`: the `try` body with every raised
exception caught and converted to `(None, None, 0)`. -/
def detect_emotion (env : DetectEnv) : Option Region × Option String × ℚ :=
  match detect_emotion_body env with
  | Except.ok v => v
  | Except.error _ => (none, none, 0)

/-- The state of `EmotionDetectionApp` (plus its `EmotionDetector`):
the two bounded histories, the `detection_active` flag, the statistics text
last written to `emotion_stats_label`, and a counter of how many
`threading.Thread(...).start()` calls have been made (modelling whether a
detection activity was begun). -/
structure AppState where
  emotion_history : List String
  emotion_timestamps : List Int
  detection_active : Bool
  emotion_stats_label : Option (List (String × ℚ))
  detection_runs : Nat
deriving DecidableEq, Repr

/-- The state right after `EmotionDetectionApp.__init__`. -/
def initState : AppState :=
  { emotion_history := []
    emotion_timestamps := []
    detection_active := false
    emotion_stats_label := none
    detection_runs := 0 }

/-- `EmotionDetectionApp.start_detection`: if the session is not active,
reset both histories (`reset_emotion_history`), set the flag and start the
detection thread; otherwise do nothing. -/
def start_detection (s : AppState) : AppState :=
  if s.detection_active = false then
    { emotion_history := []
      emotion_timestamps := []
      detection_active := true
      emotion_stats_label := s.emotion_stats_label
      detection_runs := s.detection_runs + 1 }
  else s

/-- `EmotionDetectionApp.stop_detection`: if the session is active, clear the
flag, compute `get_emotion_stats`, and (when non-empty) display it on
`emotion_stats_label`; otherwise do nothing. The second component is the
distribution the call produced — `[]` when the inactive branch computes
none. -/
def stop_detection (s : AppState) : AppState × List (String × ℚ) :=
  if s.detection_active then
    let stats := get_emotion_stats s.emotion_history
    ({ s with
        detection_active := false
        emotion_stats_label :=
          if stats.isEmpty then s.emotion_stats_label else some stats },
      stats)
  else (s, [])

/-- The observable events of the session state machine: the two button
handlers, and one iteration of the `run_detection` loop in which
`detect_emotion` returned the label `em` at time `t`. -/
inductive Event where
  | start : Event
  | stop : Event
  | record : Option String → Int → Event
deriving DecidableEq, Repr

/-- One step of the state machine. A `record` iteration only runs while
`detection_active` (the `while self.detection_active` check), and only
appends when the label is truthy (`if emotion:` — `None` and the empty
string are both falsy in Python). -/
def step (s : AppState) : Event → AppState
  | Event.start => start_detection s
  | Event.stop => (stop_detection s).1
  | Event.record em t =>
    if s.detection_active then
      match em with
      | some lbl =>
        if lbl.isEmpty then s
        else
          { s with
              emotion_history := dequeAppend HISTORY_CAP s.emotion_history lbl
              emotion_timestamps :=
                dequeAppend HISTORY_CAP s.emotion_timestamps t }
      | none => s
    else s

/-- The state reached from `initState` by a sequence of events. -/
def run (events : List Event) : AppState :=
  events.foldl step initState

/-- Applying one recording iteration per label, in order. -/
def recordAll (s : AppState) (labels : List String) : AppState :=
  labels.foldl (fun st l => step st (Event.record (some l) 0)) s

theorem recordAll_active (s : AppState) (labels : List String)
    (hact : s.detection_active = true)
    (hne : ∀ l ∈ labels, l.isEmpty = false) :
    (recordAll s labels).detection_active = true ∧
    (recordAll s labels).emotion_history =
      labels.foldl (dequeAppend HISTORY_CAP) s.emotion_history := by
  induction labels generalizing s with
  | nil => exact ⟨hact, rfl⟩
  | cons a l ih =>
    have ha : a.isEmpty = false := hne a (List.mem_cons_self a l)
    have hstep : step s (Event.record (some a) 0) =
        { s with
            emotion_history := dequeAppend HISTORY_CAP s.emotion_history a
            emotion_timestamps :=
              dequeAppend HISTORY_CAP s.emotion_timestamps 0 } := by
      simp [step, hact, ha]
    have hrec : recordAll s (a :: l) =
        recordAll (step s (Event.record (some a) 0)) l := rfl
    rw [hrec, hstep]
    have := ih { s with
        emotion_history := dequeAppend HISTORY_CAP s.emotion_history a
        emotion_timestamps := dequeAppend HISTORY_CAP s.emotion_timestamps 0 }
      hact (fun x hx => hne x (List.mem_cons_of_mem a hx))
    exact ⟨this.1, this.2⟩

theorem keysOf_map_value (c : List (String × Nat)) (g : Nat → ℚ) :
    (c.map (fun p => (p.1, g p.2))).map Prod.fst = keysOf c := by
  induction c with
  | nil => rfl
  | cons p l ih => simp only [List.map_cons, keysOf] at *; rw [ih]

/-- Claim C1: starting a session from Inactive and recording any sequence of
(non-empty, as `if emotion:` requires) labels leaves a history of length
`min(callCount, 100)` holding exactly the most recent at-most-100 labels in
arrival order; an append at full capacity evicts exactly the oldest entry. -/
theorem emotion_history_bounded (s : AppState)
    (hs : s.detection_active = false) (labels : List String)
    (hne : ∀ l ∈ labels, l.isEmpty = false) :
    ((recordAll (start_detection s) labels).emotion_history.length =
      min labels.length HISTORY_CAP) ∧
    ((recordAll (start_detection s) labels).emotion_history =
      lastN HISTORY_CAP labels) ∧
    (∀ (h : List String) (x : String), h.length = HISTORY_CAP →
      dequeAppend HISTORY_CAP h x = h.tail ++ [x]) := by
  have hstart : start_detection s =
      { emotion_history := []
        emotion_timestamps := []
        detection_active := true
        emotion_stats_label := s.emotion_stats_label
        detection_runs := s.detection_runs + 1 } := by
    simp [start_detection, hs]
  have hrec := recordAll_active (start_detection s) labels
    (by rw [hstart]) hne
  have hhist : (recordAll (start_detection s) labels).emotion_history =
      lastN HISTORY_CAP labels := by
    rw [hrec.2, hstart]
    have := foldl_dequeAppend HISTORY_CAP ([] : List String) (by simp) labels
    simpa using this
  refine ⟨?_, hhist, ?_⟩
  · rw [hhist, length_lastN]
  · intro h x hlen
    exact dequeAppend_full HISTORY_CAP h x hlen (by norm_num [HISTORY_CAP])

theorem emotion_history_bounded_witness :
    ((recordAll (start_detection initState) ["happy", "sad"]).emotion_history.length =
      min (["happy", "sad"] : List String).length HISTORY_CAP) ∧
    ((recordAll (start_detection initState) ["happy", "sad"]).emotion_history =
      lastN HISTORY_CAP ["happy", "sad"]) ∧
    dequeAppend HISTORY_CAP (List.replicate 100 "x") "y" =
      (List.replicate 100 "x").tail ++ ["y"] := by
  have h := emotion_history_bounded initState (by decide) ["happy", "sad"]
    (by decide)
  exact ⟨h.1, h.2.1, h.2.2 (List.replicate 100 "x") "y" (by simp [HISTORY_CAP])⟩

/-- Claim C2: `get_emotion_stats` returns the empty mapping on an empty
history; on a non-empty history its keys are exactly the distinct labels
present, the value at each present label is `100 * count(label) / |History|`,
and the values sum to exactly `100` (in `ℚ`, so within any floating-point
tolerance). -/
theorem get_emotion_stats_spec (hist : List String) (hne : hist ≠ []) :
    (get_emotion_stats [] = []) ∧
    (∀ e, e ∈ (get_emotion_stats hist).map Prod.fst ↔ e ∈ hist) ∧
    (∀ e, e ∈ hist →
      (get_emotion_stats hist).lookup e =
        some (100 * (hist.count e : ℚ) / (hist.length : ℚ))) ∧
    ((get_emotion_stats hist).map Prod.snd).sum = 100 := by
  have hie : hist.isEmpty = false := by
    cases hist with
    | nil => exact absurd rfl hne
    | cons a l => rfl
  have hstats : get_emotion_stats hist =
      (emotion_counts hist).map
        (fun p => (p.1, (p.2 : ℚ) / (hist.length : ℚ) * 100)) := by
    simp [get_emotion_stats, hie]
  have hlen0 : (hist.length : ℚ) ≠ 0 := by
    have : hist.length ≠ 0 := by
      cases hist with
      | nil => exact absurd rfl hne
      | cons a l => simp
    exact_mod_cast this
  refine ⟨rfl, ?_, ?_, ?_⟩
  · intro e
    have h1 : (get_emotion_stats hist).map Prod.fst =
        keysOf (emotion_counts hist) := by
      rw [hstats]
      exact keysOf_map_value _ (fun v => (v : ℚ) / (hist.length : ℚ) * 100)
    rw [h1, mem_keysOf_emotion_counts]
  · intro e he
    have h2 : (get_emotion_stats hist).lookup e =
        Option.map (fun v : Nat => (v : ℚ) / (hist.length : ℚ) * 100)
          ((emotion_counts hist).lookup e) := by
      rw [hstats]
      exact lookup_map_value (emotion_counts hist)
        (fun v : Nat => (v : ℚ) / (hist.length : ℚ) * 100) e
    rw [h2, lookup_emotion_counts, if_pos he]
    simp only [Option.map_some']
    congr 1
    ring
  · rw [hstats, sum_snd_map_value, sum_valsOf_emotion_counts]
    field_simp

theorem get_emotion_stats_spec_witness :
    ((get_emotion_stats ["happy", "happy", "sad"]).map Prod.snd).sum = 100 ∧
    (get_emotion_stats ["happy", "happy", "sad"]).lookup "sad" =
      some (100 * ((["happy", "happy", "sad"] : List String).count "sad" : ℚ) /
        ((["happy", "happy", "sad"] : List String).length : ℚ)) :=
  ⟨(get_emotion_stats_spec ["happy", "happy", "sad"] (by decide)).2.2.2,
   (get_emotion_stats_spec ["happy", "happy", "sad"] (by decide)).2.2.1 "sad"
     (by decide)⟩

/-- An environment whose frame contains zero detectable faces. -/
def envZeroFaces : DetectEnv :=
  { cvtColor := Except.ok ()
    detectMultiScale := Except.ok []
    analyze := fun _ => Except.error "unreached" }

/-- An environment in which `cv2.cvtColor` raises. -/
def envCvtError : DetectEnv :=
  { cvtColor := Except.error "malformed frame"
    detectMultiScale := Except.ok [⟨0, 0, 30, 30⟩]
    analyze := fun _ => Except.ok ⟨some "happy", [("happy", 95)]⟩ }

/-- Claim C3: `detect_emotion` is fail-open and total — it returns
`(None, None, 0)` whenever face localization finds zero faces or whenever any
step of the `try` body raises, and its result is always either that default
or the body's successful value (an exception never reaches the caller). -/
theorem detect_emotion_fail_open (env : DetectEnv) :
    (∀ e, detect_emotion_body env = Except.error e →
      detect_emotion env = (none, none, 0)) ∧
    (env.detectMultiScale = Except.ok [] →
      detect_emotion env = (none, none, 0)) ∧
    (detect_emotion env = (none, none, 0) ∨
      detect_emotion_body env = Except.ok (detect_emotion env)) := by
  refine ⟨?_, ?_, ?_⟩
  · intro e he
    simp [detect_emotion, he]
  · intro hzero
    cases hg : env.cvtColor with
    | error e =>
      have hb : detect_emotion_body env = Except.error e := by
        simp [detect_emotion_body, hg, Bind.bind, Except.bind]
      simp [detect_emotion, hb]
    | ok u =>
      have hb : detect_emotion_body env = Except.ok (none, none, 0) := by
        simp [detect_emotion_body, hg, hzero, Bind.bind, Except.bind, Pure.pure,
          Except.pure]
      simp [detect_emotion, hb]
  · cases hb : detect_emotion_body env with
    | error e => exact Or.inl (by simp [detect_emotion, hb])
    | ok v => exact Or.inr (by simp [detect_emotion, hb])

theorem detect_emotion_fail_open_witness :
    detect_emotion envZeroFaces = (none, none, 0) ∧
    detect_emotion envCvtError = (none, none, 0) :=
  ⟨(detect_emotion_fail_open envZeroFaces).2.1 rfl,
   (detect_emotion_fail_open envCvtError).1 "malformed frame" rfl⟩

/-- Claim C8: with at least one face found and a successful classification of
the first region's crop, `detect_emotion` returns the first region in scan
order together with the classifier's dominant label; the confidence is the
classifier's reported score for that label, and `0` when no label was
produced. -/
theorem detect_emotion_first_face (env : DetectEnv) (f : Region)
    (rest : List Region) (res : AnalyzeResult)
    (hg : env.cvtColor = Except.ok ())
    (hf : env.detectMultiScale = Except.ok (f :: rest))
    (ha : env.analyze f = Except.ok res) :
    detect_emotion env =
      (some f, res.dominant_emotion, scoreGet res.emotion res.dominant_emotion) ∧
    (∀ lbl c, res.dominant_emotion = some lbl →
      res.emotion.lookup lbl = some c →
      detect_emotion env = (some f, some lbl, c)) ∧
    (res.dominant_emotion = none → detect_emotion env = (some f, none, 0)) := by
  have hb : detect_emotion_body env =
      Except.ok
        (some f, res.dominant_emotion, scoreGet res.emotion res.dominant_emotion) := by
    simp [detect_emotion_body, hg, hf, ha, Bind.bind, Except.bind, Pure.pure,
      Except.pure]
  have hd : detect_emotion env =
      (some f, res.dominant_emotion, scoreGet res.emotion res.dominant_emotion) := by
    simp [detect_emotion, hb]
  refine ⟨hd, ?_, ?_⟩
  · intro lbl c hlbl hc
    rw [hd, hlbl]
    simp [scoreGet, hc]
  · intro hnone
    rw [hd, hnone]
    simp [scoreGet]

/-- An environment whose classifier reports the dominant label with score 95. -/
def envHappyFace : DetectEnv :=
  { cvtColor := Except.ok ()
    detectMultiScale := Except.ok [⟨1, 2, 3, 4⟩, ⟨5, 6, 7, 8⟩]
    analyze := fun _ => Except.ok ⟨some "happy", [("happy", 95), ("sad", 5)]⟩ }

theorem detect_emotion_first_face_witness :
    detect_emotion envHappyFace = (some ⟨1, 2, 3, 4⟩, some "happy", 95) :=
  (detect_emotion_first_face envHappyFace ⟨1, 2, 3, 4⟩ [⟨5, 6, 7, 8⟩]
      ⟨some "happy", [("happy", 95), ("sad", 5)]⟩ rfl rfl rfl).2.1
    "happy" 95 rfl rfl

/-- An environment whose classifier's per-label score dict does not contain
the dominant label it reports. -/
def envMissingScore : DetectEnv :=
  { cvtColor := Except.ok ()
    detectMultiScale := Except.ok [⟨0, 0, 30, 30⟩]
    analyze := fun _ => Except.ok ⟨some "happy", [("sad", 5)]⟩ }

/-- An environment whose classifier reports no dominant label at all. -/
def envNoLabel : DetectEnv :=
  { cvtColor := Except.ok ()
    detectMultiScale := Except.ok [⟨0, 0, 30, 30⟩]
    analyze := fun _ => Except.ok ⟨none, [("happy", 99)]⟩ }

/-- Claim C10: confidence `0` does not imply nothing was detected — when the
score dict lacks the dominant label the adapter returns a non-`None` label
with confidence `0`, and a non-`None` face region can come with a `None`
label. -/
theorem confidence_zero_not_no_detection :
    detect_emotion envMissingScore = (some ⟨0, 0, 30, 30⟩, some "happy", 0) ∧
    detect_emotion envNoLabel = (some ⟨0, 0, 30, 30⟩, none, 0) :=
  ⟨rfl, rfl⟩

/-- A state in the middle of an active session holding one observation. -/
def activeMidSession : AppState :=
  { emotion_history := ["sad"]
    emotion_timestamps := [0]
    detection_active := true
    emotion_stats_label := none
    detection_runs := 1 }

/-- Claim C4 counterexample: invoking `start_detection` while already Active
does not clear the prior history, and an observation recorded after the call
is appended after the pre-call entry — the claim fails at this input. -/
theorem start_detection_active_mixes_history :
    (start_detection activeMidSession).emotion_history = ["sad"] ∧
    (step (step activeMidSession Event.start)
        (Event.record (some "happy") 1)).emotion_history = ["sad", "happy"] := by
  constructor <;> rfl

/-- Claim C4 (amended): `start()` invoked from Inactive clears both histories
before any new observations are accepted; invoked while already Active it is a
no-op, leaving the ongoing session's history in place (so later observations
append after the pre-call entries). -/
theorem start_detection_clears_from_inactive (s : AppState) :
    (s.detection_active = false →
      (start_detection s).emotion_history = [] ∧
      (start_detection s).emotion_timestamps = [] ∧
      (start_detection s).detection_active = true) ∧
    (s.detection_active = true → start_detection s = s) := by
  constructor
  · intro h
    simp [start_detection, h]
  · intro h
    simp [start_detection, h]

theorem start_detection_clears_from_inactive_witness :
    ((start_detection initState).emotion_history = [] ∧
      (start_detection initState).emotion_timestamps = [] ∧
      (start_detection initState).detection_active = true) ∧
    start_detection activeMidSession = activeMidSession :=
  ⟨(start_detection_clears_from_inactive initState).1 rfl,
   (start_detection_clears_from_inactive activeMidSession).2 rfl⟩

/-- Claim C5: `start_detection` while the session is already Active is a
no-op — the state (histories, flag, displayed statistics) is unchanged and no
additional detection thread is started. -/
theorem start_detection_active_noop (s : AppState)
    (h : s.detection_active = true) :
    start_detection s = s ∧
    (start_detection s).detection_runs = s.detection_runs := by
  have hs : start_detection s = s := by simp [start_detection, h]
  exact ⟨hs, by rw [hs]⟩

theorem start_detection_active_noop_witness :
    start_detection activeMidSession = activeMidSession ∧
    (start_detection activeMidSession).detection_runs =
      activeMidSession.detection_runs :=
  start_detection_active_noop activeMidSession rfl

/-- Claim C6: `stop_detection` while Active clears the flag and produces the
`get_emotion_stats` snapshot of the history at the moment of stopping, leaving
the history itself untouched; while Inactive it is an idempotent no-op whose
produced distribution is empty. -/
theorem stop_detection_spec (s : AppState) :
    (s.detection_active = true →
      (stop_detection s).1.detection_active = false ∧
      (stop_detection s).2 = get_emotion_stats s.emotion_history ∧
      (stop_detection s).1.emotion_history = s.emotion_history ∧
      (stop_detection s).1.emotion_timestamps = s.emotion_timestamps) ∧
    (s.detection_active = false →
      stop_detection s = (s, []) ∧
      stop_detection (stop_detection s).1 = (s, [])) := by
  constructor
  · intro h
    simp [stop_detection, h]
  · intro h
    have h1 : stop_detection s = (s, []) := by
      simp [stop_detection, h]
    exact ⟨h1, by rw [h1]; exact h1⟩

theorem stop_detection_spec_witness :
    ((stop_detection activeMidSession).1.detection_active = false ∧
      (stop_detection activeMidSession).2 =
        get_emotion_stats activeMidSession.emotion_history ∧
      (stop_detection activeMidSession).1.emotion_history =
        activeMidSession.emotion_history ∧
      (stop_detection activeMidSession).1.emotion_timestamps =
        activeMidSession.emotion_timestamps) ∧
    (stop_detection initState = (initState, []) ∧
      stop_detection (stop_detection initState).1 = (initState, [])) :=
  ⟨(stop_detection_spec activeMidSession).1 rfl,
   (stop_detection_spec initState).2 rfl⟩

/-- Claim C7: in every reachable state of the start/stop/record machine, a
recording iteration performed while the session is Inactive leaves the whole
state — in particular the history — unchanged; from the initial (empty,
inactive) state its length stays `0`. -/
theorem record_inactive_leaves_history (events : List Event) (em : Option String)
    (t : Int) (h : (run events).detection_active = false) :
    step (run events) (Event.record em t) = run events ∧
    (step (run events) (Event.record em t)).emotion_history =
      (run events).emotion_history ∧
    (run [Event.record em t]).emotion_history.length = 0 := by
  have hs : step (run events) (Event.record em t) = run events := by
    simp [step, h]
  have h0 : run [Event.record em t] = initState := by
    simp [run, step, initState]
  exact ⟨hs, by rw [hs], by rw [h0]; rfl⟩

theorem record_inactive_leaves_history_witness :
    step (run [Event.start, Event.stop]) (Event.record (some "happy") 0) =
      run [Event.start, Event.stop] ∧
    (step (run [Event.start, Event.stop])
        (Event.record (some "happy") 0)).emotion_history =
      (run [Event.start, Event.stop]).emotion_history ∧
    (run [Event.record (some "happy") 0]).emotion_history.length = 0 :=
  record_inactive_leaves_history [Event.start, Event.stop] (some "happy") 0 rfl

/-- Claim C9: the label history and the timestamp history never diverge in
length — in every state reachable from the initial state by start/stop/record
events, `|emotion_history| = |emotion_timestamps|`. -/
theorem histories_parallel (events : List Event) :
    (run events).emotion_history.length =
      (run events).emotion_timestamps.length := by
  suffices h : ∀ (evs : List Event) (s : AppState),
      s.emotion_history.length = s.emotion_timestamps.length →
      (evs.foldl step s).emotion_history.length =
        (evs.foldl step s).emotion_timestamps.length from
    h events initState rfl
  intro evs
  induction evs with
  | nil => intro s hs; exact hs
  | cons e evs ih =>
    intro s hs
    rw [List.foldl_cons]
    refine ih (step s e) ?_
    cases e with
    | start =>
      by_cases ha : s.detection_active = false
      · simp [step, start_detection, ha]
      · simp only [Bool.not_eq_false] at ha
        simp [step, start_detection, ha, hs]
    | stop =>
      by_cases ha : s.detection_active
      · simp [step, stop_detection, ha, hs]
      · simp [step, stop_detection, ha, hs]
    | record em t =>
      by_cases ha : s.detection_active
      · cases em with
        | none => simp [step, ha, hs]
        | some lbl =>
          by_cases hl : lbl.isEmpty
          · simp [step, ha, hl, hs]
          · simp [step, ha, hl, length_dequeAppend, hs]
      · simp [step, ha, hs]
